import Mathlib

/-!
# Verification of `value/fields.go` (structured-merge-diff)

Shallow embedding of the `value` package's `FieldList` core: the `Field` /
`FieldList` data model, `Compare`, `Equals`, `Sort`, and the JSON
encode/decode helpers, together with proofs of the specification's
testable properties.

The `Value` type is external to this core (the spec treats it as an opaque
polymorphic value with its own comparator and equality), so the embedding
is parametric in a type `V` together with an external comparator
`vcomp : V → V → Int` and equality `veq : V → V → Bool`, exactly as the
spec's assumptions are phrased.
-/

namespace value

/-- A `Field` is an individual key-value pair (`type Field struct`). -/
structure Field (V : Type) where
  Name : String
  Value : V
deriving Repr

/-- A `FieldList` is a list of key-value pairs (`type FieldList []Field`). -/
abbrev FieldList (V : Type) : Type := List (Field V)

/-- Go's `strings.Compare`: 0 when `a == b`, -1 when `a < b` byte-wise,
+1 otherwise.  Byte-wise lexicographic order on UTF-8 strings agrees with
the code-point lexicographic order used by Lean's `String` order. -/
def stringsCompare (a b : String) : Int :=
  if a = b then 0 else if a < b then -1 else 1

/-- Embedding of `FieldList.Compare`: the positional walk of `func (f FieldList) Compare`.
The Go loop over a shared index `i` is rendered as structural recursion on
the two lists; each iteration corresponds to one constructor layer:
both exhausted → 0, left exhausted → -1, right exhausted → +1, otherwise
compare names, then values, then continue. -/
def FieldList.Compare (vcomp : V → V → Int) : FieldList V → FieldList V → Int
  | [], [] => 0
  | [], _ :: _ => -1
  | _ :: _, [] => 1
  | a :: f, b :: rhs =>
    if stringsCompare a.Name b.Name ≠ 0 then stringsCompare a.Name b.Name
    else if vcomp a.Value b.Value ≠ 0 then vcomp a.Value b.Value
    else FieldList.Compare vcomp f rhs

/-- The literal loop of `func (f FieldList) Compare`, with its shared index
`i` and an explicit fuel bound standing for the number of loop iterations
allowed; `none` means the fuel ran out before the loop returned. -/
def compareLoop (vcomp : V → V → Int) (f rhs : FieldList V) : Nat → Nat → Option Int
  | _, 0 => none
  | i, fuel + 1 =>
    if i ≥ f.length ∧ i ≥ rhs.length then some 0
    else if i ≥ f.length then some (-1)
    else if i ≥ rhs.length then some 1
    else
      match f.get? i, rhs.get? i with
      | some a, some b =>
        if stringsCompare a.Name b.Name ≠ 0 then some (stringsCompare a.Name b.Name)
        else if vcomp a.Value b.Value ≠ 0 then some (vcomp a.Value b.Value)
        else compareLoop vcomp f rhs (i + 1) fuel
      | _, _ => none

/-- Embedding of `FieldList.Less`: `f.Compare(rhs) == -1`. -/
def FieldList.Less (vcomp : V → V → Int) (f rhs : FieldList V) : Bool :=
  FieldList.Compare vcomp f rhs == -1

/-- Embedding of `FieldList.Equals`: the length check plus indexed walk of
`func (f FieldList) Equals`, rendered as structural recursion on the two
lists (unequal lengths surface as one list ending before the other). -/
def FieldList.Equals (veq : V → V → Bool) : FieldList V → FieldList V → Bool
  | [], [] => true
  | [], _ :: _ => false
  | _ :: _, [] => false
  | a :: f, b :: rhs =>
    decide (a.Name = b.Name) && veq a.Value b.Value && FieldList.Equals veq f rhs

/-- The by-name order used by `Sort`'s stable sort:
`less(i, j) = f[i].Name < f[j].Name` induces insertion before the first
element that is not strictly smaller, i.e. ordering by `Name ≤ Name`. -/
def leName {V : Type} (a b : Field V) : Prop := a.Name ≤ b.Name

instance {V : Type} : DecidableRel (leName (V := V)) := fun a b =>
  inferInstanceAs (Decidable (a.Name ≤ b.Name))

instance {V : Type} : IsTotal (Field V) leName :=
  ⟨fun a b => le_total a.Name b.Name⟩

instance {V : Type} : IsTrans (Field V) leName :=
  ⟨fun _ _ _ h h' => le_trans h h'⟩

/-- Embedding of `FieldList.Sort`: lists of length < 2 are untouched; length 2 is a
single conditional swap; otherwise a stable sort by `Name`
(`sort.SliceStable` is modelled by insertion sort, which is stable). -/
def FieldList.Sort : FieldList V → FieldList V
  | [] => []
  | [a] => [a]
  | [a, b] => if b.Name < a.Name then [b, a] else [a, b]
  | f => List.insertionSort leName f

/-! ### The JSON codec

The JSON tokenizer/builder and the concrete `Value` representation live
outside this core (`internal/builder` and the rest of the `value` package),
so they are modelled from the spec below: the spec's §9 prescribes a tagged
variant for the polymorphic `Value`, §6 prescribes a pull parser delivering
raw tokens plus `UnmarshalString` / `UnmarshalInterface` decoding routines,
and an incremental builder with `WriteByte` / `WriteJSON`. -/

/-- Modelled from the spec: the opaque polymorphic `Value` — "any
JSON-representable value (null, bool, number, string, array,
object-as-nested-FieldList)" — reimplemented as a tagged variant per the
spec's design notes.  Numbers are modelled as integers. -/
inductive JValue : Type where
  | null : JValue
  | bool : Bool → JValue
  | num : Int → JValue
  | str : String → JValue
  | arr : List JValue → JValue
  | obj : List (String × JValue) → JValue

mutual

/-- Modelled from the spec: the external `value.Equals` — equality defined
recursively by case over the tagged variant. -/
def jEquals : JValue → JValue → Bool
  | .null, .null => true
  | .bool a, .bool b => a == b
  | .num a, .num b => a == b
  | .str a, .str b => a == b
  | .arr xs, .arr ys => jEqualsList xs ys
  | .obj ms, .obj ns => jEqualsMembers ms ns
  | _, _ => false

/-- Element-wise equality of arrays. -/
def jEqualsList : List JValue → List JValue → Bool
  | [], [] => true
  | x :: xs, y :: ys => jEquals x y && jEqualsList xs ys
  | _, _ => false

/-- Member-wise equality of objects. -/
def jEqualsMembers : List (String × JValue) → List (String × JValue) → Bool
  | [], [] => true
  | (k, v) :: ms, (k2, v2) :: ns => k == k2 && jEquals v v2 && jEqualsMembers ms ns
  | _, _ => false

end

/-- Modelled from the spec: `NewValueInterface` wraps the generic in-memory
representation as a polymorphic `Value` without changing the data. -/
def NewValueInterface (v : JValue) : JValue := v

/-- Modelled from the spec: `Value.Unstructured` returns the value's plain
generic form without changing the data. -/
def JValue.Unstructured (v : JValue) : JValue := v

/-- Digits of a natural number, most significant first. -/
def natToDigits (n : Nat) : List Char :=
  if _ : n < 10 then [Nat.digitChar n]
  else natToDigits (n / 10) ++ [Nat.digitChar (n % 10)]
decreasing_by exact Nat.div_lt_self (by omega) (by omega)

/-- JSON text of an integer. -/
def marshalInt (n : Int) : List Char :=
  if n < 0 then '-' :: natToDigits (-n).toNat else natToDigits n.toNat

/-- JSON escaping of one string character (the model escapes the quote and
the backslash). -/
def escapeChar (c : Char) : List Char :=
  if c = '"' ∨ c = '\\' then ['\\', c] else [c]

/-- JSON text of a string. -/
def marshalString (s : String) : List Char :=
  '"' :: (s.data.flatMap escapeChar ++ ['"'])

mutual

/-- Modelled from the spec: the JSON text the external builder emits for one
generic value (`WriteJSON`). -/
def marshalJValue : JValue → List Char
  | .null => 'n' :: 'u' :: 'l' :: ['l']
  | .bool true => 't' :: 'r' :: 'u' :: ['e']
  | .bool false => 'f' :: 'a' :: 'l' :: 's' :: ['e']
  | .num n => marshalInt n
  | .str s => marshalString s
  | .arr [] => ['[', ']']
  | .arr (x :: xs) => '[' :: (marshalJValue x ++ marshalElems xs ++ [']'])
  | .obj [] => ['\x7b', '\x7d']
  | .obj (m :: ms) => '\x7b' :: (marshalMember m ++ marshalMembers ms ++ ['\x7d'])

/-- Remaining array elements, each preceded by a comma. -/
def marshalElems : List JValue → List Char
  | [] => []
  | x :: xs => ',' :: (marshalJValue x ++ marshalElems xs)

/-- One object member: key, colon, value. -/
def marshalMember : String × JValue → List Char
  | (k, v) => marshalString k ++ ':' :: marshalJValue v

/-- Remaining object members, each preceded by a comma. -/
def marshalMembers : List (String × JValue) → List Char
  | [] => []
  | m :: ms => ',' :: (marshalMember m ++ marshalMembers ms)

end

/-- Consume an expected literal suffix. -/
def dropLit : List Char → List Char → Option (List Char)
  | [], s => some s
  | _ :: _, [] => none
  | c :: cs, d :: s => if c = d then dropLit cs s else none

/-- Value of a digit string, most significant first. -/
def digitsVal (ds : List Char) : Nat :=
  ds.foldl (fun acc c => acc * 10 + (c.toNat - 48)) 0

/-- Greedy parse of a nonempty digit run. -/
def parseNat (s : List Char) : Option (Nat × List Char) :=
  let ds := s.takeWhile Char.isDigit
  if ds.isEmpty then none
  else some (digitsVal ds, s.dropWhile Char.isDigit)

/-- Parse the body of a JSON string (after the opening quote), undoing
`escapeChar`, up to the closing quote. -/
def parseStringBody : List Char → Option (List Char × List Char)
  | [] => none
  | '"' :: rest => some ([], rest)
  | ['\\'] => none
  | '\\' :: d :: rest2 => (parseStringBody rest2).map fun p => (d :: p.1, p.2)
  | c :: rest => (parseStringBody rest).map fun p => (c :: p.1, p.2)

mutual

/-- Modelled from the spec: recursive-descent decoding of one raw value
token into the generic representation (the heart of `UnmarshalInterface`).
`fuel` bounds the recursion depth; it is chosen large enough from the
token's length at the call site. -/
def parseJValue : Nat → List Char → Option (JValue × List Char)
  | 0, _ => none
  | _ + 1, [] => none
  | fuel + 1, c :: rest =>
    if c = 'n' then (dropLit ['u', 'l', 'l'] rest).map fun r => (JValue.null, r)
    else if c = 't' then (dropLit ['r', 'u', 'e'] rest).map fun r => (JValue.bool true, r)
    else if c = 'f' then (dropLit ['a', 'l', 's', 'e'] rest).map fun r => (JValue.bool false, r)
    else if c = '"' then (parseStringBody rest).map fun p => (JValue.str (String.mk p.1), p.2)
    else if c = '-' then (parseNat rest).map fun p => (JValue.num (-(p.1 : Int)), p.2)
    else if c = '[' then
      if rest.head? = some ']' then some (JValue.arr [], rest.tail)
      else (parseElems fuel rest).map fun p => (JValue.arr p.1, p.2)
    else if c = '\x7b' then
      if rest.head? = some '\x7d' then some (JValue.obj [], rest.tail)
      else (parseMembers fuel rest).map fun p => (JValue.obj p.1, p.2)
    else if c.isDigit then (parseNat (c :: rest)).map fun p => (JValue.num (p.1 : Int), p.2)
    else none

/-- Parse the elements of a nonempty array up to the closing bracket. -/
def parseElems : Nat → List Char → Option (List JValue × List Char)
  | 0, _ => none
  | fuel + 1, s =>
    match parseJValue fuel s with
    | none => none
    | some (v, rest) =>
      if rest.head? = some ',' then
        (parseElems fuel rest.tail).map fun p => (v :: p.1, p.2)
      else if rest.head? = some ']' then some ([v], rest.tail)
      else none

/-- Parse the members of a nonempty object up to the closing brace. -/
def parseMembers : Nat → List Char → Option (List (String × JValue) × List Char)
  | 0, _ => none
  | _ + 1, [] => none
  | fuel + 1, c :: s1 =>
    if c = '"' then
      match parseStringBody s1 with
      | none => none
      | some (kcs, s2) =>
        if s2.head? = some ':' then
          match parseJValue fuel s2.tail with
          | none => none
          | some (v, s3) =>
            if s3.head? = some ',' then
              (parseMembers fuel s3.tail).map fun p => ((String.mk kcs, v) :: p.1, p.2)
            else if s3.head? = some '\x7d' then some ([(String.mk kcs, v)], s3.tail)
            else none
        else none
    else none

end

/-- Modelled from the spec: `builder.UnmarshalString` unescapes a raw key
token into a plain string. -/
def UnmarshalString (tok : List Char) : Except String String :=
  match tok with
  | [] => .error "invalid string"
  | c :: rest =>
    if c = '"' then
      match parseStringBody rest with
      | some (cs, []) => .ok (String.mk cs)
      | _ => .error "invalid string"
    else .error "invalid string"

/-- Modelled from the spec: `builder.UnmarshalInterface` decodes a raw
value token into the generic in-memory representation. -/
def UnmarshalInterface (tok : List Char) : Except String JValue :=
  match parseJValue (tok.length + 1) tok with
  | some (v, []) => .ok v
  | _ => .error "invalid value"

/-- Modelled from the spec: the external incremental JSON builder —
`out` is the byte stream written so far, and `toks` records the raw value
tokens emitted by `WriteJSON`, in order (the framing that the pull parser
recovers from the byte stream). -/
structure JSONBuilder where
  out : List Char
  toks : List (List Char)

/-- The builder operation `WriteByte` appends one byte to the output. -/
def JSONBuilder.WriteByte (w : JSONBuilder) (c : Char) : JSONBuilder :=
  ⟨w.out ++ [c], w.toks⟩

/-- Modelled from the spec: `WriteJSON` emits the JSON text of one generic
value; on the tagged-variant model every value has a supported shape, so no
builder error arises. -/
def JSONBuilder.WriteJSON (w : JSONBuilder) (v : JValue) : Except String JSONBuilder :=
  .ok ⟨w.out ++ marshalJValue v, w.toks ++ [marshalJValue v]⟩

/-- The loop of `FieldListToJSON`: for each field emit the name as a JSON
string, a colon, the value's unstructured form, and a comma between
members but not after the last (`i < len(v)-1` becomes "the tail is
nonempty"). -/
def fieldListToJSONLoop : FieldList JValue → JSONBuilder → Except String JSONBuilder
  | [], w => .ok w
  | f :: rest, w => do
    let w1 ← w.WriteJSON (JValue.str f.Name)
    let w2 := w1.WriteByte ':'
    let w3 ← w2.WriteJSON f.Value.Unstructured
    match rest with
    | [] => .ok w3
    | _ :: _ => fieldListToJSONLoop rest (w3.WriteByte ',')

/-- Embedding of `FieldListToJSON`: open brace, the member loop, close brace. -/
def FieldListToJSON (v : FieldList JValue) (w : JSONBuilder) : Except String JSONBuilder := do
  let w1 := w.WriteByte '\x7b'
  let w2 ← fieldListToJSONLoop v w1
  .ok (w2.WriteByte '\x7d')

/-- Modelled from the spec: one pull of the external parser either yields a
raw token or a parse error; end-of-input is the end of the stream. -/
abbrev TokenStream : Type := List (Except String (List Char))

/-- The loop of `FieldListFromJSON`: pull a raw key (end-of-input stops the
loop normally), pull the paired raw value (end-of-input here is malformed),
decode both, append, repeat.  Mirroring the Go return convention, the
result is the pair (list, error): `(fields, none)` on success and
`([], some e)` on error — a `nil` list alongside the error. -/
def fieldListFromJSONLoop (fields : FieldList JValue) : TokenStream → FieldList JValue × Option String
  | [] => (fields, none)
  | .error e :: _ => ([], some ("parsing JSON: " ++ e))
  | .ok rawKey :: rest =>
    match rest with
    | [] => ([], some "unexpected EOF")
    | .error e :: _ => ([], some ("parsing JSON: " ++ e))
    | .ok rawValue :: rest2 =>
      match UnmarshalString rawKey with
      | .error e => ([], some ("parsing JSON: " ++ e))
      | .ok k =>
        match UnmarshalInterface rawValue with
        | .error e => ([], some ("parsing JSON: " ++ e))
        | .ok v =>
          fieldListFromJSONLoop (fields ++ [⟨k, NewValueInterface v⟩]) rest2

/-- Embedding of `FieldListFromJSON`, starting from the empty field list. -/
def FieldListFromJSON (input : TokenStream) : FieldList JValue × Option String :=
  fieldListFromJSONLoop [] input

/-! ### A concrete external `Value` instantiation, used by the witnesses -/

/-- A concrete value comparator over `Int`, standing in for the external
`value.Compare` in the witnesses. -/
def intCompare (a b : Int) : Int := if a < b then -1 else if b < a then 1 else 0

/-- A concrete value equality over `Int`, standing in for the external
`value.Equals` in the witnesses. -/
def intEq (a b : Int) : Bool := a == b

/-- A character sequence that does not begin with a digit (the shape of
everything that may legally follow a marshalled number token). -/
def noDigitStart (s : List Char) : Prop :=
  ∀ c, s.head? = some c → c.isDigit = false

/-- A token stream made of complete key/value token pairs that all decode
successfully — the streams on which `FieldListFromJSON`'s loop keeps
iterating without returning. -/
def goodPairs : TokenStream → Prop
  | [] => True
  | [_] => False
  | t1 :: t2 :: rest =>
    (∃ k, t1 = .ok k ∧ ∃ s, UnmarshalString k = .ok s) ∧
      (∃ rv, t2 = .ok rv ∧ ∃ i, UnmarshalInterface rv = .ok i) ∧
      goodPairs rest

/-! ### Helper lemmas about `stringsCompare` -/

theorem stringsCompare_self (a : String) : stringsCompare a a = 0 := by
  simp [stringsCompare]

theorem stringsCompare_eq_zero {a b : String} : stringsCompare a b = 0 ↔ a = b := by
  unfold stringsCompare
  split_ifs <;> simp_all

theorem stringsCompare_antisymm (a b : String) :
    stringsCompare a b = -stringsCompare b a := by
  unfold stringsCompare
  rcases lt_trichotomy a b with h | h | h
  · simp [h, h.ne, h.ne', h.not_lt]
  · simp [h]
  · simp [h, h.ne, h.ne', h.not_lt]

theorem intEq_iff_intCompare (v w : Int) : intEq v w = true ↔ intCompare v w = 0 := by
  unfold intEq intCompare
  split_ifs with h1 h2 <;> simp <;> omega

theorem intCompare_antisymm (v w : Int) : intCompare v w = -intCompare w v := by
  unfold intCompare
  split_ifs <;> omega

theorem intCompare_self (v : Int) : intCompare v v = 0 := by
  simp [intCompare]

/-- C1: for all FieldLists `A`, `B`, assuming the external `Value` equality
holds exactly when the external `Value` comparison returns 0,
`FieldList.Equals A B` returns `true` iff `FieldList.Compare A B` returns 0. -/
theorem compare_equals_consistency {V : Type} (vcomp : V → V → Int) (veq : V → V → Bool)
    (h : ∀ v w, veq v w = true ↔ vcomp v w = 0) (A B : FieldList V) :
    FieldList.Equals veq A B = true ↔ FieldList.Compare vcomp A B = 0 := by
  induction A generalizing B with
  | nil =>
    cases B with
    | nil => simp [FieldList.Equals, FieldList.Compare]
    | cons b bs => simp [FieldList.Equals, FieldList.Compare]
  | cons a as ih =>
    cases B with
    | nil => simp [FieldList.Equals, FieldList.Compare]
    | cons b bs =>
      by_cases hn : a.Name = b.Name
      · by_cases hv : vcomp a.Value b.Value = 0
        · have hveq : veq a.Value b.Value = true := (h _ _).mpr hv
          simp [FieldList.Equals, FieldList.Compare, hn, hv, hveq,
            stringsCompare_self, ih]
        · have hveq : veq a.Value b.Value ≠ true := fun hc => hv ((h _ _).mp hc)
          simp [FieldList.Equals, FieldList.Compare, hn, hv, hveq,
            stringsCompare_self]
      · have hs : stringsCompare a.Name b.Name ≠ 0 := fun hc =>
          hn (stringsCompare_eq_zero.mp hc)
        simp [FieldList.Equals, FieldList.Compare, hn, hs]

/-- C1 witness: the consistency theorem applied at a concrete pair of lists
over the concrete `Int` value model. -/
theorem compare_equals_consistency_witness :
    (FieldList.Equals intEq [⟨"a", (1 : Int)⟩, ⟨"b", 2⟩] [⟨"a", 1⟩, ⟨"b", 3⟩] = true ↔
      FieldList.Compare intCompare [⟨"a", (1 : Int)⟩, ⟨"b", 2⟩] [⟨"a", 1⟩, ⟨"b", 3⟩] = 0) ∧
    FieldList.Equals intEq [⟨"a", (1 : Int)⟩, ⟨"b", 2⟩] [⟨"a", 1⟩, ⟨"b", 3⟩] = false :=
  ⟨compare_equals_consistency intCompare intEq intEq_iff_intCompare _ _, by decide⟩

/-- C2: assuming the external `Value` comparator is antisymmetric,
`FieldList.Compare A B = -(FieldList.Compare B A)`; in particular
`FieldList.Compare A A = 0` when the comparator is reflexive-zero. -/
theorem compare_antisymm {V : Type} (vcomp : V → V → Int)
    (hanti : ∀ v w, vcomp v w = -vcomp w v) :
    (∀ A B : FieldList V, FieldList.Compare vcomp A B = -FieldList.Compare vcomp B A) ∧
    (∀ A : FieldList V, (∀ v, vcomp v v = 0) → FieldList.Compare vcomp A A = 0) := by
  have main : ∀ A B : FieldList V,
      FieldList.Compare vcomp A B = -FieldList.Compare vcomp B A := by
    intro A
    induction A with
    | nil => intro B; cases B <;> simp [FieldList.Compare]
    | cons a as ih =>
      intro B
      cases B with
      | nil => simp [FieldList.Compare]
      | cons b bs =>
        by_cases hs : stringsCompare a.Name b.Name = 0
        · have hs' : stringsCompare b.Name a.Name = 0 := by
            rw [stringsCompare_antisymm, hs]; ring
          by_cases hv : vcomp a.Value b.Value = 0
          · have hv' : vcomp b.Value a.Value = 0 := by
              rw [hanti, hv]; ring
            simp [FieldList.Compare, hs, hs', hv, hv', ih]
          · have hv' : vcomp b.Value a.Value ≠ 0 := by
              rw [hanti]; omega
            simp only [FieldList.Compare, hs, hs', hv, hv', ne_eq,
              not_true_eq_false, not_false_eq_true, if_true, if_false,
              ite_false, ite_true]
            exact hanti a.Value b.Value
        · have hs' : stringsCompare b.Name a.Name ≠ 0 := by
            rw [stringsCompare_antisymm]; omega
          simp [FieldList.Compare, hs, hs', stringsCompare_antisymm a.Name b.Name]
  refine ⟨main, fun A hrefl => ?_⟩
  have := main A A
  omega

/-- C2 witness: antisymmetry applied at concrete lists over the concrete
`Int` value model, and reflexive-zero at a concrete list. -/
theorem compare_antisymm_witness :
    FieldList.Compare intCompare [⟨"a", (1 : Int)⟩] [⟨"a", 2⟩, ⟨"b", 3⟩] =
      -FieldList.Compare intCompare [⟨"a", (2 : Int)⟩, ⟨"b", 3⟩] [⟨"a", 1⟩] ∧
    FieldList.Compare intCompare [⟨"a", (1 : Int)⟩, ⟨"b", 3⟩] [⟨"a", 1⟩, ⟨"b", 3⟩] = 0 :=
  ⟨(compare_antisymm intCompare intCompare_antisymm).1 _ _,
    (compare_antisymm intCompare intCompare_antisymm).2 _ intCompare_self⟩

/-- C4: a strict prefix compares as shorter: when the comparator is
reflexive-zero (part of the external total-order comparator contract),
`FieldList.Compare P (P ++ R) = -1` and `FieldList.Compare (P ++ R) P = 1`
for every nonempty extension `R` (so the extension agrees with `P` in name
and value at every shared position). -/
theorem compare_proper_extension {V : Type} (vcomp : V → V → Int)
    (hrefl : ∀ v, vcomp v v = 0) (P R : FieldList V) (hR : R ≠ []) :
    FieldList.Compare vcomp P (P ++ R) = -1 ∧
      FieldList.Compare vcomp (P ++ R) P = 1 := by
  induction P with
  | nil =>
    obtain ⟨r, rs, rfl⟩ := List.exists_cons_of_ne_nil hR
    simp [FieldList.Compare]
  | cons a as ih =>
    simpa [FieldList.Compare, stringsCompare_self, hrefl] using ih

/-- C4 witness: the fact `Compare [⟨a,1⟩] [⟨a,1⟩,⟨b,2⟩] = -1` and the reverse is `1`,
over the concrete `Int` value model. -/
theorem compare_proper_extension_witness :
    FieldList.Compare intCompare [⟨"a", (1 : Int)⟩] ([⟨"a", (1 : Int)⟩] ++ [⟨"b", 2⟩]) = -1 ∧
      FieldList.Compare intCompare ([⟨"a", (1 : Int)⟩] ++ [⟨"b", 2⟩]) [⟨"a", (1 : Int)⟩] = 1 :=
  compare_proper_extension intCompare intCompare_self [⟨"a", 1⟩] [⟨"b", 2⟩]
    (List.cons_ne_nil _ _)

/-- The `Compare` loop, run from index `i` with enough fuel, returns the
structural comparison of the remaining suffixes. -/
theorem compareLoop_drop {V : Type} (vcomp : V → V → Int) (f rhs : FieldList V) :
    ∀ fuel i, i ≤ max f.length rhs.length → max f.length rhs.length < i + fuel →
      compareLoop vcomp f rhs i fuel =
        some (FieldList.Compare vcomp (f.drop i) (rhs.drop i)) := by
  intro fuel
  induction fuel with
  | zero => intro i h1 h2; omega
  | succ fuel ih =>
    intro i h1 h2
    by_cases hf : i ≥ f.length
    · by_cases hr : i ≥ rhs.length
      · rw [List.drop_eq_nil_of_le hf, List.drop_eq_nil_of_le hr]
        simp [compareLoop, hf, hr, FieldList.Compare]
      · push_neg at hr
        rw [List.drop_eq_nil_of_le hf, List.drop_eq_getElem_cons hr]
        simp [compareLoop, hf, hr.not_le, FieldList.Compare]
    · push_neg at hf
      by_cases hr : i ≥ rhs.length
      · rw [List.drop_eq_nil_of_le hr, List.drop_eq_getElem_cons hf]
        simp [compareLoop, hf.not_le, hr, FieldList.Compare]
      · push_neg at hr
        rw [List.drop_eq_getElem_cons hf, List.drop_eq_getElem_cons hr]
        have hrec := ih (i + 1) (by omega) (by omega)
        simp only [compareLoop, hf.not_le, hr.not_le, false_and, if_false,
          List.get?_eq_getElem?, List.getElem?_eq_getElem hf,
          List.getElem?_eq_getElem hr]
        by_cases hs : stringsCompare f[i].Name rhs[i].Name = 0
        · by_cases hv : vcomp f[i].Value rhs[i].Value = 0
          · simp [FieldList.Compare, hs, hv, hrec]
          · simp [FieldList.Compare, hs, hv]
        · simp [FieldList.Compare, hs]

/-- C10: the unbounded loop of `Compare` terminates for every pair of finite
lists: run with fuel `max (len f) (len rhs) + 1` — i.e. within that many
iterations — it returns, and its result is the comparison of the two lists. -/
theorem compareLoop_terminates {V : Type} (vcomp : V → V → Int) (f rhs : FieldList V) :
    compareLoop vcomp f rhs 0 (max f.length rhs.length + 1) =
      some (FieldList.Compare vcomp f rhs) := by
  simpa using compareLoop_drop vcomp f rhs (max f.length rhs.length + 1) 0
    (by omega) (by omega)

/-! ### Helper lemmas about `Sort` -/

theorem sort_perm {V : Type} (f : FieldList V) : (FieldList.Sort f).Perm f := by
  rcases f with _ | ⟨a, _ | ⟨b, _ | ⟨c, l⟩⟩⟩
  · rfl
  · rfl
  · show (if b.Name < a.Name then [b, a] else [a, b]).Perm [a, b]
    split_ifs
    · exact List.Perm.swap a b []
    · rfl
  · exact List.perm_insertionSort leName _

theorem sort_sorted {V : Type} (f : FieldList V) :
    List.Pairwise leName (FieldList.Sort f) := by
  rcases f with _ | ⟨a, _ | ⟨b, _ | ⟨c, l⟩⟩⟩
  · exact List.Pairwise.nil
  · exact List.pairwise_singleton _ _
  · show List.Pairwise leName (if b.Name < a.Name then [b, a] else [a, b])
    split_ifs with h
    · exact List.pairwise_pair.mpr (le_of_lt h)
    · exact List.pairwise_pair.mpr (not_lt.mp h)
  · exact List.sorted_insertionSort leName _

theorem sort_eq_of_sorted {V : Type} {f : FieldList V}
    (h : List.Pairwise leName f) : FieldList.Sort f = f := by
  rcases f with _ | ⟨a, _ | ⟨b, _ | ⟨c, l⟩⟩⟩
  · rfl
  · rfl
  · have hab : leName a b := List.pairwise_pair.mp h
    show (if b.Name < a.Name then [b, a] else [a, b]) = [a, b]
    rw [if_neg (not_lt.mpr hab)]
  · exact List.Sorted.insertionSort_eq h

theorem filter_orderedInsert_pos {V : Type} (a : Field V) (n : String)
    (h : a.Name = n) : ∀ l : List (Field V),
      (List.orderedInsert leName a l).filter (fun x => x.Name == n) =
        a :: l.filter (fun x => x.Name == n) := by
  intro l
  induction l with
  | nil => simp [List.orderedInsert, List.filter_cons, h]
  | cons b l ih =>
    unfold List.orderedInsert
    split_ifs with hle
    · simp [List.filter_cons, h]
    · have hb : b.Name ≠ n := by
        have hlt : b.Name < a.Name := not_le.mp hle
        rw [h] at hlt
        exact hlt.ne
      simp [List.filter_cons, hb, ih]

theorem filter_orderedInsert_neg {V : Type} (a : Field V) (n : String)
    (h : a.Name ≠ n) : ∀ l : List (Field V),
      (List.orderedInsert leName a l).filter (fun x => x.Name == n) =
        l.filter (fun x => x.Name == n) := by
  intro l
  induction l with
  | nil => simp [List.orderedInsert, List.filter_cons, h]
  | cons b l ih =>
    unfold List.orderedInsert
    split_ifs with hle
    · simp [List.filter_cons, h]
    · simp [List.filter_cons, ih]

theorem filter_insertionSort {V : Type} (n : String) : ∀ l : List (Field V),
    (List.insertionSort leName l).filter (fun x => x.Name == n) =
      l.filter (fun x => x.Name == n) := by
  intro l
  induction l with
  | nil => rfl
  | cons a l ih =>
    show (List.orderedInsert leName a (List.insertionSort leName l)).filter _ = _
    by_cases h : a.Name = n
    · rw [filter_orderedInsert_pos a n h, ih]
      simp [List.filter_cons, h]
    · rw [filter_orderedInsert_neg a n h, ih]
      simp [List.filter_cons, h]

theorem sort_filter {V : Type} (f : FieldList V) (n : String) :
    (FieldList.Sort f).filter (fun x => x.Name == n) =
      f.filter (fun x => x.Name == n) := by
  rcases f with _ | ⟨a, _ | ⟨b, _ | ⟨c, l⟩⟩⟩
  · rfl
  · rfl
  · show (if b.Name < a.Name then [b, a] else [a, b]).filter _ = _
    split_ifs with h
    · have hne : b.Name ≠ a.Name := h.ne
      by_cases h1 : a.Name = n <;> by_cases h2 : b.Name = n <;>
        simp_all [List.filter_cons]
    · rfl
  · exact filter_insertionSort n _

/-- C5: `Sort` produces a permutation of the original fields, arranged in
non-decreasing (byte-wise lexicographic) order of `Name`, and the multiset
of `Value`s is untouched. -/
theorem sort_spec {V : Type} (f : FieldList V) :
    (FieldList.Sort f).Perm f ∧
      List.Pairwise leName (FieldList.Sort f) ∧
      ((FieldList.Sort f).map Field.Value).Perm (f.map Field.Value) :=
  ⟨sort_perm f, sort_sorted f, (sort_perm f).map Field.Value⟩

/-- C6: `Sort` is stable for every list size, including the special-cased
sizes 0, 1 and 2: the subsequence of fields carrying any given name is
unchanged by `Sort`, so two fields with equal `Name` keep their relative
order. -/
theorem sort_stable {V : Type} (f : FieldList V) (n : String) :
    (FieldList.Sort f).filter (fun x => x.Name == n) =
      f.filter (fun x => x.Name == n) :=
  sort_filter f n

/-- C7: `Sort` is idempotent: sorting twice yields the same order as sorting
once, and sorting an already-sorted list is a no-op. -/
theorem sort_idempotent {V : Type} (f : FieldList V) :
    FieldList.Sort (FieldList.Sort f) = FieldList.Sort f ∧
      (List.Pairwise leName f → FieldList.Sort f = f) :=
  ⟨sort_eq_of_sorted (sort_sorted f), fun h => sort_eq_of_sorted h⟩

/-- C7 witness: idempotence at a concrete already-sorted singleton list. -/
theorem sort_idempotent_witness :
    FieldList.Sort (FieldList.Sort [⟨"a", (1 : Int)⟩]) = FieldList.Sort [⟨"a", (1 : Int)⟩] ∧
      FieldList.Sort [⟨"a", (1 : Int)⟩] = [⟨"a", (1 : Int)⟩] :=
  ⟨(sort_idempotent [⟨"a", (1 : Int)⟩]).1,
    (sort_idempotent [⟨"a", (1 : Int)⟩]).2 (List.pairwise_singleton _ _)⟩

/-! ### Correctness of the modelled JSON codec -/

theorem digitChar_isDigit {d : Nat} (h : d < 10) : (Nat.digitChar d).isDigit = true := by
  interval_cases d <;> decide

theorem digitChar_toNat {d : Nat} (h : d < 10) : (Nat.digitChar d).toNat = 48 + d := by
  interval_cases d <;> decide

theorem natToDigits_ne_nil (n : Nat) : natToDigits n ≠ [] := by
  unfold natToDigits
  split_ifs <;> simp

theorem natToDigits_all_digits : ∀ n, ∀ c ∈ natToDigits n, c.isDigit = true := by
  intro n
  induction n using Nat.strong_induction_on with
  | _ n ih =>
    intro c hc
    unfold natToDigits at hc
    split_ifs at hc with h
    · simp only [List.mem_singleton] at hc
      subst hc
      exact digitChar_isDigit h
    · rcases List.mem_append.mp hc with h1 | h1
      · exact ih (n / 10) (Nat.div_lt_self (by omega) (by omega)) c h1
      · simp only [List.mem_singleton] at h1
        subst h1
        exact digitChar_isDigit (Nat.mod_lt _ (by omega))

theorem foldl_natToDigits : ∀ n acc,
    (natToDigits n).foldl (fun a c => a * 10 + (c.toNat - 48)) acc =
      acc * 10 ^ (natToDigits n).length + n := by
  intro n
  induction n using Nat.strong_induction_on with
  | _ n ih =>
    intro acc
    unfold natToDigits
    split_ifs with h
    · simp [digitChar_toNat h]
    · rw [List.foldl_append, ih (n / 10) (Nat.div_lt_self (by omega) (by omega))]
      have hm : (Nat.digitChar (n % 10)).toNat = 48 + n % 10 :=
        digitChar_toNat (Nat.mod_lt _ (by omega))
      simp only [List.foldl_cons, List.foldl_nil, List.length_append,
        List.length_singleton, hm]
      have hdm : 10 * (n / 10) + n % 10 = n := Nat.div_add_mod n 10
      ring_nf
      omega

theorem takeWhile_append_all {p : Char → Bool} :
    ∀ xs rest : List Char, (∀ c ∈ xs, p c = true) →
      (xs ++ rest).takeWhile p = xs ++ rest.takeWhile p := by
  intro xs rest hall
  induction xs with
  | nil => simp
  | cons c xs ih =>
    have hc : p c = true := hall c (List.mem_cons_self _ _)
    simp only [List.cons_append, List.takeWhile_cons, hc, if_true]
    rw [ih fun d hd => hall d (List.mem_cons_of_mem _ hd)]

theorem dropWhile_append_all {p : Char → Bool} :
    ∀ xs rest : List Char, (∀ c ∈ xs, p c = true) →
      (xs ++ rest).dropWhile p = rest.dropWhile p := by
  intro xs rest hall
  induction xs with
  | nil => simp
  | cons c xs ih =>
    have hc : p c = true := hall c (List.mem_cons_self _ _)
    simp only [List.cons_append, List.dropWhile_cons, hc, if_true]
    exact ih fun d hd => hall d (List.mem_cons_of_mem _ hd)

theorem takeWhile_noDigitStart {rest : List Char} (h : noDigitStart rest) :
    rest.takeWhile Char.isDigit = [] := by
  cases rest with
  | nil => rfl
  | cons c t =>
    have := h c rfl
    simp [List.takeWhile_cons, this]

theorem dropWhile_noDigitStart {rest : List Char} (h : noDigitStart rest) :
    rest.dropWhile Char.isDigit = rest := by
  cases rest with
  | nil => rfl
  | cons c t =>
    have := h c rfl
    simp [List.dropWhile_cons, this]

theorem parseNat_natToDigits (n : Nat) (rest : List Char) (hrest : noDigitStart rest) :
    parseNat (natToDigits n ++ rest) = some (n, rest) := by
  unfold parseNat
  rw [takeWhile_append_all _ _ (natToDigits_all_digits n),
    dropWhile_append_all _ _ (natToDigits_all_digits n),
    takeWhile_noDigitStart hrest, dropWhile_noDigitStart hrest,
    List.append_nil]
  have hne := natToDigits_ne_nil n
  rw [if_neg (by simpa [List.isEmpty_iff] using hne)]
  unfold digitsVal
  rw [foldl_natToDigits n 0]
  simp

theorem parseStringBody_marshal : ∀ l rest : List Char,
    parseStringBody (l.flatMap escapeChar ++ '"' :: rest) = some (l, rest) := by
  intro l rest
  induction l with
  | nil => simp [parseStringBody]
  | cons c l ih =>
    show parseStringBody ((escapeChar c ++ l.flatMap escapeChar) ++ '"' :: rest) = _
    by_cases hc : c = '"' ∨ c = '\\'
    · simp only [escapeChar, hc, if_true, List.cons_append, List.nil_append]
      simp [parseStringBody, ih]
    · push_neg at hc
      simp only [escapeChar, hc.1, hc.2, or_self, if_false, List.cons_append,
        List.nil_append]
      simp [parseStringBody, hc.1, hc.2, ih]

theorem dropLit_append : ∀ lit rest : List Char, dropLit lit (lit ++ rest) = some rest := by
  intro lit rest
  induction lit with
  | nil => rfl
  | cons c cs ih => simp [dropLit, ih]

theorem marshalInt_ne_nil (n : Int) : marshalInt n ≠ [] := by
  unfold marshalInt
  split_ifs
  · simp
  · exact natToDigits_ne_nil _

theorem marshalJValue_ne_nil : ∀ v : JValue, marshalJValue v ≠ [] := by
  intro v
  rcases v with _ | b | n | s | (_ | ⟨x, xs⟩) | (_ | ⟨m, ms⟩)
  · simp [marshalJValue]
  · cases b <;> simp [marshalJValue]
  · exact marshalInt_ne_nil n
  · simp [marshalJValue, marshalString]
  · simp [marshalJValue]
  · simp [marshalJValue]
  · simp [marshalJValue]
  · simp [marshalJValue]

theorem marshalJValue_length_pos (v : JValue) : 1 ≤ (marshalJValue v).length :=
  List.length_pos.mpr (marshalJValue_ne_nil v)

theorem marshalString_length (s : String) :
    (marshalString s).length = (s.data.flatMap escapeChar).length + 2 := by
  simp [marshalString]

theorem isDigit_ne_starters {c : Char} (h : c.isDigit = true) :
    c ≠ 'n' ∧ c ≠ 't' ∧ c ≠ 'f' ∧ c ≠ '"' ∧ c ≠ '-' ∧ c ≠ '[' ∧ c ≠ '\x7b' ∧ c ≠ ']' := by
  refine ⟨?_, ?_, ?_, ?_, ?_, ?_, ?_, ?_⟩ <;>
    exact fun he => absurd h (by subst he; decide)

theorem marshalJValue_head_ne_rbracket (v : JValue) :
    ∀ c t, marshalJValue v = c :: t → c ≠ ']' := by
  intro c t hm
  rcases v with _ | b | n | s | (_ | ⟨x, xs⟩) | (_ | ⟨m, ms⟩)
  · simp [marshalJValue] at hm; rw [← hm.1]; decide
  · cases b <;> simp [marshalJValue] at hm <;> rw [← hm.1] <;> decide
  · unfold marshalJValue marshalInt at hm
    split_ifs at hm with hneg
    · rw [List.cons.injEq] at hm
      rw [← hm.1]; decide
    · have hd : c.isDigit = true := by
        apply natToDigits_all_digits (n.toNat) c
        rw [hm]
        exact List.mem_cons_self _ _
      exact (isDigit_ne_starters hd).2.2.2.2.2.2.2
  · simp [marshalJValue, marshalString] at hm; rw [← hm.1]; decide
  · simp [marshalJValue] at hm; rw [← hm.1]; decide
  · simp [marshalJValue] at hm; rw [← hm.1]; decide
  · simp [marshalJValue] at hm; rw [← hm.1]; decide
  · simp [marshalJValue] at hm; rw [← hm.1]; decide

theorem noDigitStart_nil : noDigitStart [] := fun _ hd => by simp at hd

theorem noDigitStart_cons {c : Char} (h : c.isDigit = false) (t : List Char) :
    noDigitStart (c :: t) := by
  intro d hd
  simp only [List.head?_cons, Option.some.injEq] at hd
  subst hd
  exact h

theorem parse_marshal : ∀ fuel : Nat,
    (∀ (v : JValue) (rest : List Char), (marshalJValue v).length ≤ fuel → noDigitStart rest →
      parseJValue fuel (marshalJValue v ++ rest) = some (v, rest)) ∧
    (∀ (x : JValue) (xs : List JValue) (rest : List Char),
      1 + (marshalJValue x).length + (marshalElems xs).length ≤ fuel →
      parseElems fuel (marshalJValue x ++ (marshalElems xs ++ ']' :: rest)) =
        some (x :: xs, rest)) ∧
    (∀ (k : String) (v : JValue) (ms : List (String × JValue)) (rest : List Char),
      1 + (marshalMember (k, v)).length + (marshalMembers ms).length ≤ fuel →
      parseMembers fuel (marshalMember (k, v) ++ (marshalMembers ms ++ '\x7d' :: rest)) =
        some ((k, v) :: ms, rest)) := by
  intro fuel
  induction fuel with
  | zero =>
    refine ⟨fun v rest hlen _ => ?_, fun x xs rest h => absurd h (by omega),
      fun k v ms rest h => absurd h (by omega)⟩
    have := marshalJValue_length_pos v
    omega
  | succ fuel ih =>
    obtain ⟨ihP, ihQ, ihR⟩ := ih
    refine ⟨?_, ?_, ?_⟩
    · intro v rest hlen hrest
      rcases v with _ | b | n | s | (_ | ⟨x, xs⟩) | (_ | ⟨m, ms⟩)
      · simp [marshalJValue, parseJValue, dropLit]
      · cases b <;> simp [marshalJValue, parseJValue, dropLit]
      · show parseJValue (fuel + 1) (marshalInt n ++ rest) = _
        unfold marshalInt
        split_ifs with hneg
        · simp only [List.cons_append]
          simp [parseJValue, parseNat_natToDigits _ _ hrest]
          omega
        · cases hnd : natToDigits n.toNat with
          | nil => exact absurd hnd (natToDigits_ne_nil _)
          | cons d ds =>
            have hdig : d.isDigit = true :=
              natToDigits_all_digits _ d (by rw [hnd]; exact List.mem_cons_self _ _)
            obtain ⟨h1, h2, h3, h4, h5, h6, h7, _⟩ := isDigit_ne_starters hdig
            simp only [List.cons_append]
            simp [parseJValue, h1, h2, h3, h4, h5, h6, h7, hdig]
            rw [← List.cons_append, ← hnd, parseNat_natToDigits _ _ hrest]
            simp
            omega
      · show parseJValue (fuel + 1) ('"' :: (s.data.flatMap escapeChar ++ ['"'] ++ rest)) = _
        rw [List.append_assoc]
        simp [parseJValue, parseStringBody_marshal]
      · simp [marshalJValue, parseJValue]
      · show parseJValue (fuel + 1)
            (('[' :: (marshalJValue x ++ marshalElems xs ++ [']'])) ++ rest) = _
        have hre : (marshalJValue x ++ marshalElems xs ++ [']']) ++ rest =
            marshalJValue x ++ (marshalElems xs ++ ']' :: rest) := by simp
        have hlen' : 1 + (marshalJValue x).length + (marshalElems xs).length ≤ fuel := by
          simp [marshalJValue] at hlen
          omega
        simp only [List.cons_append, hre]
        cases hmx : marshalJValue x with
        | nil => exact absurd hmx (marshalJValue_ne_nil x)
        | cons c t =>
          have hc : c ≠ ']' := marshalJValue_head_ne_rbracket x c t hmx
          simp only [List.cons_append]
          simp [parseJValue, hc]
          rw [← List.cons_append, ← hmx, ihQ x xs rest hlen']
      · simp [marshalJValue, parseJValue]
      · show parseJValue (fuel + 1)
            (('\x7b' :: (marshalMember m ++ marshalMembers ms ++ ['\x7d'])) ++ rest) = _
        have hre : (marshalMember m ++ marshalMembers ms ++ ['\x7d']) ++ rest =
            marshalMember m ++ (marshalMembers ms ++ '\x7d' :: rest) := by simp
        rcases m with ⟨k, v⟩
        have hlen' : 1 + (marshalMember (k, v)).length + (marshalMembers ms).length ≤ fuel := by
          simp [marshalJValue] at hlen
          omega
        simp only [List.cons_append, hre]
        have hhd : marshalMember (k, v) ++ (marshalMembers ms ++ '\x7d' :: rest) =
            '"' :: ((k.data.flatMap escapeChar ++ ['"'] ++ (':' :: marshalJValue v)) ++
              (marshalMembers ms ++ '\x7d' :: rest)) := by
          simp [marshalMember, marshalString]
        rw [hhd]
        simp [parseJValue]
        have hR := ihR k v ms rest hlen'
        rw [show marshalMember (k, v) ++ (marshalMembers ms ++ '\x7d' :: rest) =
            '"' :: (k.data.flatMap escapeChar ++ '"' ::
              ':' :: (marshalJValue v ++ (marshalMembers ms ++ '\x7d' :: rest))) from by
          simp [marshalMember, marshalString]] at hR
        exact hR
    · intro x xs rest hb
      have hnds : noDigitStart (marshalElems xs ++ ']' :: rest) := by
        cases xs with
        | nil => exact noDigitStart_cons (by decide) rest
        | cons x2 xs' =>
          show noDigitStart ((',' :: _) ++ _)
          rw [List.cons_append]
          exact noDigitStart_cons (by decide) _
      have hlx := marshalJValue_length_pos x
      rw [parseElems]
      rw [ihP x (marshalElems xs ++ ']' :: rest) (by omega) hnds]
      cases xs with
      | nil =>
        simp [marshalElems]
      | cons x2 xs' =>
        have hre : marshalElems (x2 :: xs') ++ ']' :: rest =
            ',' :: (marshalJValue x2 ++ (marshalElems xs' ++ ']' :: rest)) := by
          simp [marshalElems]
        rw [hre]
        have hlx2 := marshalJValue_length_pos x2
        have hb' : 1 + (marshalJValue x2).length + (marshalElems xs').length ≤ fuel := by
          simp [marshalElems] at hb
          omega
        simp [ihQ x2 xs' rest hb']
    · intro k v ms rest hb
      have hnds : noDigitStart (marshalMembers ms ++ '\x7d' :: rest) := by
        cases ms with
        | nil => exact noDigitStart_cons (by decide) rest
        | cons m2 ms' =>
          show noDigitStart ((',' :: _) ++ _)
          rw [List.cons_append]
          exact noDigitStart_cons (by decide) _
      have hlv := marshalJValue_length_pos v
      have hsl := marshalString_length k
      have hml : (marshalMember (k, v)).length =
          (marshalString k).length + 1 + (marshalJValue v).length := by
        simp [marshalMember]
        omega
      have hhd : marshalMember (k, v) ++ (marshalMembers ms ++ '\x7d' :: rest) =
          '"' :: (k.data.flatMap escapeChar ++ '"' ::
            (':' :: (marshalJValue v ++ (marshalMembers ms ++ '\x7d' :: rest)))) := by
        simp [marshalMember, marshalString]
      have hpv : parseJValue fuel (marshalJValue v ++ (marshalMembers ms ++ '\x7d' :: rest)) =
          some (v, marshalMembers ms ++ '\x7d' :: rest) :=
        ihP v (marshalMembers ms ++ '\x7d' :: rest) (by omega) hnds
      rw [hhd, parseMembers]
      simp only [parseStringBody_marshal k.data
        (':' :: (marshalJValue v ++ (marshalMembers ms ++ '\x7d' :: rest)))]
      simp [hpv]
      cases ms with
      | nil =>
        simp [marshalMembers]
      | cons m2 ms' =>
        rcases m2 with ⟨k2, v2⟩
        have hb' : 1 + (marshalMember (k2, v2)).length + (marshalMembers ms').length ≤ fuel := by
          simp [marshalMembers] at hb
          omega
        simp [marshalMembers, ihR k2 v2 ms' rest hb']

theorem UnmarshalString_marshalString (k : String) :
    UnmarshalString (marshalString k) = .ok k := by
  show UnmarshalString ('"' :: (k.data.flatMap escapeChar ++ ['"'])) = _
  simp [UnmarshalString, parseStringBody_marshal k.data []]

theorem UnmarshalInterface_marshal (v : JValue) :
    UnmarshalInterface (marshalJValue v) = .ok v := by
  unfold UnmarshalInterface
  have hp := (parse_marshal ((marshalJValue v).length + 1)).1 v [] (by omega) noDigitStart_nil
  rw [List.append_nil] at hp
  rw [hp]

theorem toJSONLoop_toks : ∀ (L : FieldList JValue) (w : JSONBuilder),
    ∃ w2, fieldListToJSONLoop L w = .ok w2 ∧
      w2.toks = w.toks ++
        L.flatMap fun f => [marshalJValue (JValue.str f.Name), marshalJValue f.Value] := by
  intro L
  induction L with
  | nil => intro w; exact ⟨w, rfl, by simp⟩
  | cons f rest ih =>
    intro w
    cases rest with
    | nil =>
      refine ⟨_, rfl, ?_⟩
      simp [fieldListToJSONLoop, JSONBuilder.WriteJSON, JSONBuilder.WriteByte,
        JValue.Unstructured]
    | cons g rest2 =>
      obtain ⟨w2, hok, htoks⟩ := ih
        ⟨(((w.out ++ marshalJValue (JValue.str f.Name)) ++ [':']) ++
            marshalJValue f.Value) ++ [','],
          (w.toks ++ [marshalJValue (JValue.str f.Name)]) ++ [marshalJValue f.Value]⟩
      refine ⟨w2, ?_, ?_⟩
      · show fieldListToJSONLoop (f :: g :: rest2) w = .ok w2
        simp only [fieldListToJSONLoop, JSONBuilder.WriteJSON, JSONBuilder.WriteByte,
          JValue.Unstructured]
        exact hok
      · rw [htoks]
        simp

theorem FieldListToJSON_ok (L : FieldList JValue) :
    ∃ w2, FieldListToJSON L ⟨[], []⟩ = .ok w2 ∧
      w2.toks = L.flatMap fun f => [marshalJValue (JValue.str f.Name), marshalJValue f.Value] := by
  obtain ⟨w2, hok, htoks⟩ := toJSONLoop_toks L (JSONBuilder.mk ['\x7b'] [])
  refine ⟨w2.WriteByte '\x7d', ?_, ?_⟩
  · show (do
      let w1 := (JSONBuilder.mk [] []).WriteByte '\x7b'
      let w2 ← fieldListToJSONLoop L w1
      pure (w2.WriteByte '\x7d')) = _
    simp only [JSONBuilder.WriteByte, List.nil_append]
    rw [hok]
    rfl
  · simp [JSONBuilder.WriteByte, htoks]

theorem fromJSONLoop_tokens : ∀ (L fields : FieldList JValue),
    fieldListFromJSONLoop fields
      ((L.flatMap fun f => [marshalJValue (JValue.str f.Name), marshalJValue f.Value]).map
        Except.ok) =
      (fields ++ L, none) := by
  intro L
  induction L with
  | nil => intro fields; simp [fieldListFromJSONLoop]
  | cons f rest ih =>
    intro fields
    have hks : UnmarshalString (marshalJValue (JValue.str f.Name)) = .ok f.Name :=
      UnmarshalString_marshalString f.Name
    simp only [List.flatMap_cons, List.cons_append, List.map_cons, List.nil_append]
    simp only [fieldListFromJSONLoop, hks, UnmarshalInterface_marshal f.Value]
    rw [ih]
    simp [NewValueInterface]

theorem jEquals_refl_aux : ∀ n : Nat,
    (∀ v : JValue, sizeOf v ≤ n → jEquals v v = true) ∧
    (∀ xs : List JValue, sizeOf xs ≤ n → jEqualsList xs xs = true) ∧
    (∀ ms : List (String × JValue), sizeOf ms ≤ n → jEqualsMembers ms ms = true) := by
  intro n
  induction n with
  | zero =>
    refine ⟨fun v h => ?_, fun xs h => ?_, fun ms h => ?_⟩
    · rcases v with _ | b | m | s | xs | ms <;> simp at h
    · rcases xs with _ | ⟨x, xs⟩ <;> simp at h
    · rcases ms with _ | ⟨m, ms⟩ <;> simp at h
  | succ n ih =>
    obtain ⟨ihV, ihL, ihM⟩ := ih
    refine ⟨fun v h => ?_, fun xs h => ?_, fun ms h => ?_⟩
    · rcases v with _ | b | m | s | xs | ms
      · simp [jEquals]
      · simp [jEquals]
      · simp [jEquals]
      · simp [jEquals]
      · show jEqualsList xs xs = true
        apply ihL
        simp at h
        omega
      · show jEqualsMembers ms ms = true
        apply ihM
        simp at h
        omega
    · rcases xs with _ | ⟨x, xs⟩
      · simp [jEqualsList]
      · simp only [jEqualsList, Bool.and_eq_true]
        simp at h
        exact ⟨ihV x (by omega), ihL xs (by omega)⟩
    · rcases ms with _ | ⟨⟨k, v⟩, ms⟩
      · simp [jEqualsMembers]
      · simp only [jEqualsMembers, Bool.and_eq_true]
        simp at h
        exact ⟨⟨by simp, ihV v (by omega)⟩, ihM ms (by omega)⟩

theorem jEquals_refl (v : JValue) : jEquals v v = true :=
  (jEquals_refl_aux (sizeOf v)).1 v le_rfl

theorem equals_jEquals_refl : ∀ L : FieldList JValue,
    FieldList.Equals jEquals L L = true := by
  intro L
  induction L with
  | nil => rfl
  | cons f rest ih => simp [FieldList.Equals, jEquals_refl, ih]

/-- C3: serializing any FieldList with `FieldListToJSON` and decoding the
produced raw tokens back through `FieldListFromJSON` yields a FieldList
that `Equals` the original (with the spec-modelled `Value` equality). -/
theorem json_round_trip (L : FieldList JValue) :
    ∃ w, FieldListToJSON L ⟨[], []⟩ = .ok w ∧
      (FieldListFromJSON (w.toks.map Except.ok)).2 = none ∧
      FieldList.Equals jEquals (FieldListFromJSON (w.toks.map Except.ok)).1 L = true := by
  obtain ⟨w, hok, htoks⟩ := FieldListToJSON_ok L
  have hfrom : FieldListFromJSON (w.toks.map Except.ok) = (L, none) := by
    rw [htoks]
    show fieldListFromJSONLoop [] _ = _
    rw [fromJSONLoop_tokens L []]
    rfl
  exact ⟨w, hok, by rw [hfrom], by rw [hfrom]; exact equals_jEquals_refl L⟩

/-- C9: when the parser signals end-of-input on the very first key read
(an empty object), `FieldListFromJSON` returns an empty FieldList and no
error. -/
theorem fromJSON_empty : FieldListFromJSON [] = ([], none) := rfl

theorem fromJSONLoop_eof_after_key : ∀ (n : Nat) (pre : TokenStream), pre.length ≤ n →
    goodPairs pre → ∀ (fields : FieldList JValue) (k : List Char),
      fieldListFromJSONLoop fields (pre ++ [.ok k]) = ([], some "unexpected EOF") := by
  intro n
  induction n with
  | zero =>
    intro pre hl _ fields k
    have hpre : pre = [] := List.eq_nil_of_length_eq_zero (by omega)
    subst hpre
    simp [fieldListFromJSONLoop]
  | succ n ih =>
    intro pre hl hg fields k
    rcases pre with _ | ⟨t1, _ | ⟨t2, rest⟩⟩
    · simp [fieldListFromJSONLoop]
    · exact absurd hg (by simp [goodPairs])
    · simp only [goodPairs] at hg
      obtain ⟨⟨kk, rfl, s, hks⟩, ⟨rv, rfl, i, hvi⟩, hgr⟩ := hg
      simp only [List.cons_append, fieldListFromJSONLoop, hks, hvi]
      exact ih rest (by simp at hl; omega) hgr _ k

theorem fromJSONLoop_err : ∀ (n : Nat) (s : TokenStream), s.length ≤ n →
    ∀ (fields : FieldList JValue) (e : String),
      (fieldListFromJSONLoop fields s).2 = some e →
        (e = "unexpected EOF" ∨ ∃ suf, e = "parsing JSON: " ++ suf) ∧
        (fieldListFromJSONLoop fields s).1 = [] := by
  intro n
  induction n with
  | zero =>
    intro s hl fields e h
    have hs : s = [] := List.eq_nil_of_length_eq_zero (by omega)
    subst hs
    simp [fieldListFromJSONLoop] at h
  | succ n ih =>
    intro s hl fields e h
    rcases s with _ | ⟨t1, rest⟩
    · simp [fieldListFromJSONLoop] at h
    · rcases t1 with e1 | rawKey
      · simp only [fieldListFromJSONLoop] at h ⊢
        simp at h
        exact ⟨Or.inr ⟨e1, h.symm⟩, trivial⟩
      · rcases rest with _ | ⟨t2, rest2⟩
        · simp only [fieldListFromJSONLoop] at h ⊢
          simp at h
          exact ⟨Or.inl h.symm, trivial⟩
        · rcases t2 with e2 | rawValue
          · simp only [fieldListFromJSONLoop] at h ⊢
            simp at h
            exact ⟨Or.inr ⟨e2, h.symm⟩, trivial⟩
          · cases hks : UnmarshalString rawKey with
            | error e3 =>
              simp only [fieldListFromJSONLoop, hks] at h ⊢
              simp at h
              exact ⟨Or.inr ⟨e3, h.symm⟩, trivial⟩
            | ok kk =>
              cases hvi : UnmarshalInterface rawValue with
              | error e4 =>
                simp only [fieldListFromJSONLoop, hks, hvi] at h ⊢
                simp at h
                exact ⟨Or.inr ⟨e4, h.symm⟩, trivial⟩
              | ok v =>
                simp only [fieldListFromJSONLoop, hks, hvi] at h ⊢
                exact ih rest2 (by simp at hl; omega) _ e h

theorem fromJSONLoop_skipPairs : ∀ (n : Nat) (pre : TokenStream), pre.length ≤ n →
    goodPairs pre → ∀ (fields : FieldList JValue) (suffix : TokenStream),
      ∃ fields2, fieldListFromJSONLoop fields (pre ++ suffix) =
        fieldListFromJSONLoop fields2 suffix := by
  intro n
  induction n with
  | zero =>
    intro pre hl _ fields suffix
    have hpre : pre = [] := List.eq_nil_of_length_eq_zero (by omega)
    subst hpre
    exact ⟨fields, rfl⟩
  | succ n ih =>
    intro pre hl hg fields suffix
    rcases pre with _ | ⟨t1, _ | ⟨t2, rest⟩⟩
    · exact ⟨fields, rfl⟩
    · exact absurd hg (by simp [goodPairs])
    · simp only [goodPairs] at hg
      obtain ⟨⟨kk, rfl, s, hks⟩, ⟨rv, rfl, i, hvi⟩, hgr⟩ := hg
      simp only [List.cons_append, fieldListFromJSONLoop, hks, hvi]
      exact ih rest (by simp at hl; omega) hgr _ suffix

/-- C8: `FieldListFromJSON`'s error taxonomy, after any run of well-formed
decoded pairs: end-of-input right after a key yields exactly
"unexpected EOF"; a parser failure on the key token, a parser failure on
the value token, a key-unescape failure, and a value-unmarshal failure
each yield exactly the underlying cause wrapped with the prefix
"parsing JSON: "; every error the function can produce is of one of these
two shapes; and every error case returns the nil FieldList. -/
theorem fromJSON_errors :
    (∀ (pre : TokenStream) (k : List Char), goodPairs pre →
      FieldListFromJSON (pre ++ [.ok k]) = ([], some "unexpected EOF")) ∧
    (∀ (pre tail : TokenStream) (e : String), goodPairs pre →
      FieldListFromJSON (pre ++ .error e :: tail) =
        ([], some ("parsing JSON: " ++ e))) ∧
    (∀ (pre tail : TokenStream) (k : List Char) (e : String), goodPairs pre →
      FieldListFromJSON (pre ++ .ok k :: .error e :: tail) =
        ([], some ("parsing JSON: " ++ e))) ∧
    (∀ (pre tail : TokenStream) (k v : List Char) (e : String), goodPairs pre →
      UnmarshalString k = .error e →
      FieldListFromJSON (pre ++ .ok k :: .ok v :: tail) =
        ([], some ("parsing JSON: " ++ e))) ∧
    (∀ (pre tail : TokenStream) (k v : List Char) (s e : String), goodPairs pre →
      UnmarshalString k = .ok s → UnmarshalInterface v = .error e →
      FieldListFromJSON (pre ++ .ok k :: .ok v :: tail) =
        ([], some ("parsing JSON: " ++ e))) ∧
    (∀ (s : TokenStream) (e : String), (FieldListFromJSON s).2 = some e →
      e = "unexpected EOF" ∨ ∃ suf, e = "parsing JSON: " ++ suf) ∧
    (∀ (s : TokenStream) (e : String), (FieldListFromJSON s).2 = some e →
      (FieldListFromJSON s).1 = []) := by
  refine ⟨?_, ?_, ?_, ?_, ?_,
    fun s e h => (fromJSONLoop_err s.length s le_rfl [] e h).1,
    fun s e h => (fromJSONLoop_err s.length s le_rfl [] e h).2⟩
  · exact fun pre k hg => fromJSONLoop_eof_after_key pre.length pre le_rfl hg [] k
  · intro pre tail e hg
    obtain ⟨f2, heq⟩ := fromJSONLoop_skipPairs pre.length pre le_rfl hg [] (.error e :: tail)
    show fieldListFromJSONLoop [] (pre ++ .error e :: tail) = _
    rw [heq]
    simp [fieldListFromJSONLoop]
  · intro pre tail k e hg
    obtain ⟨f2, heq⟩ :=
      fromJSONLoop_skipPairs pre.length pre le_rfl hg [] (.ok k :: .error e :: tail)
    show fieldListFromJSONLoop [] (pre ++ .ok k :: .error e :: tail) = _
    rw [heq]
    simp [fieldListFromJSONLoop]
  · intro pre tail k v e hg hk
    obtain ⟨f2, heq⟩ :=
      fromJSONLoop_skipPairs pre.length pre le_rfl hg [] (.ok k :: .ok v :: tail)
    show fieldListFromJSONLoop [] (pre ++ .ok k :: .ok v :: tail) = _
    rw [heq]
    simp [fieldListFromJSONLoop, hk]
  · intro pre tail k v s e hg hk hv
    obtain ⟨f2, heq⟩ :=
      fromJSONLoop_skipPairs pre.length pre le_rfl hg [] (.ok k :: .ok v :: tail)
    show fieldListFromJSONLoop [] (pre ++ .ok k :: .ok v :: tail) = _
    rw [heq]
    simp [fieldListFromJSONLoop, hk, hv]

/-- C8 witness: concrete instances of every branch of the taxonomy — a lone
key token gives "unexpected EOF"; a parser error on the key token, on the
value token, a failing key unescape, and a failing value unmarshal each
give the wrapped "parsing JSON: " error; and the list is nil on error. -/
theorem fromJSON_errors_witness :
    FieldListFromJSON [.ok ['"', 'a', '"']] = ([], some "unexpected EOF") ∧
    FieldListFromJSON [.error "bad key"] =
      ([], some ("parsing JSON: " ++ "bad key")) ∧
    FieldListFromJSON [.ok ['"', 'a', '"'], .error "bad value"] =
      ([], some ("parsing JSON: " ++ "bad value")) ∧
    FieldListFromJSON [.ok ['x'], .ok ['1']] =
      ([], some ("parsing JSON: " ++ "invalid string")) ∧
    FieldListFromJSON [.ok ['"', 'a', '"'], .ok ['x']] =
      ([], some ("parsing JSON: " ++ "invalid value")) ∧
    ("parsing JSON: x" = "unexpected EOF" ∨
      ∃ suf, "parsing JSON: x" = "parsing JSON: " ++ suf) ∧
    (FieldListFromJSON [.error "x"]).1 = [] :=
  ⟨fromJSON_errors.1 [] ['"', 'a', '"'] (by simp [goodPairs]),
    fromJSON_errors.2.1 [] [] "bad key" (by simp [goodPairs]),
    fromJSON_errors.2.2.1 [] [] ['"', 'a', '"'] "bad value" (by simp [goodPairs]),
    fromJSON_errors.2.2.2.1 [] [] ['x'] ['1'] "invalid string"
      (by simp [goodPairs]) rfl,
    fromJSON_errors.2.2.2.2.1 [] [] ['"', 'a', '"'] ['x'] "a" "invalid value"
      (by simp [goodPairs]) rfl rfl,
    fromJSON_errors.2.2.2.2.2.1 [.error "x"] "parsing JSON: x" rfl,
    fromJSON_errors.2.2.2.2.2.2 [.error "x"] "parsing JSON: x" rfl⟩

end value
